import Mathlib

set_option maxRecDepth 8000

/-!
Verification of the metadata normalization engine of the article-generator
repository (`src/unnamed/part_001`, with the duplicated variants in
`src/server.js` and `src/unnamed/part_000`).

JavaScript strings are modelled as `List Char`; each JavaScript helper
(`fixFrontmatterFormat`, `addEmojiToTitle`, `escapeYamlString`,
`extractTitleFromLine`, `extractValueFromLine`, `extractTitleFromBody`,
`extractDescriptionFromBody`, `updateArticleFrontmatter`) is translated to a
total computable Lean function.  Regex-based operations are translated to
explicit scanning functions that reproduce the leftmost-match/backtracking
behaviour of the JavaScript regex engine, including the cases where a `\s`
class crosses a line break inside a multiline pattern.  Scanning functions
take an explicit step budget equal to the input length so that every
definition is structurally recursive and kernel-computable.
-/

/-- Character list of a string literal; the representation of JavaScript
strings used throughout this development. -/
def str (s : String) : List Char := s.toList

/-- JavaScript strings, modelled as lists of characters. -/
abbrev Str := List Char

namespace Blog

/-- The single-quote character (written via its code point to keep source
lines free of quote-escape sequences). -/
def apos : Char := Char.ofNat 39

/-- The backslash character. -/
def bslash : Char := Char.ofNat 92

/-- Whitespace class of the JavaScript `\s` regex token and of
`String.prototype.trim`: space, tab, newline, carriage return, vertical tab,
form feed (the further Unicode space characters do not occur in this
development). -/
def isWs (c : Char) : Bool :=
  c = ' ' || c = '\t' || c = '\n' || c = '\r' || c = Char.ofNat 11 || c = Char.ofNat 12

/-- JavaScript `String.prototype.trim`, left part. -/
def trimL (s : Str) : Str := s.dropWhile isWs

/-- JavaScript `String.prototype.trim`, right part. -/
def trimR (s : Str) : Str := (s.reverse.dropWhile isWs).reverse

/-- JavaScript `String.prototype.trim`. -/
def trim (s : Str) : Str := trimR (trimL s)

/-- JavaScript `content.split('\n')`. -/
def splitNl : Str → List Str
  | [] => [[]]
  | '\n' :: rest => [] :: splitNl rest
  | c :: rest =>
    match splitNl rest with
    | seg :: segs => (c :: seg) :: segs
    | [] => [[c]]

/-- JavaScript `content.split('---')`: non-overlapping occurrences of the
three-hyphen separator are removed, scanning left to right. -/
def splitDashes : Str → List Str
  | '-' :: '-' :: '-' :: rest => [] :: splitDashes rest
  | c :: rest =>
    match splitDashes rest with
    | seg :: segs => (c :: seg) :: segs
    | [] => [[c]]
  | [] => [[]]

/-- JavaScript `parts.join('---')`. -/
def joinDashes (parts : List Str) : Str := List.intercalate (str "---") parts

/-- Characters admitted by the capture group `[^"'\n]+` of the value
extraction regexes: anything except double quote, single quote, newline. -/
def isValChar (c : Char) : Bool := !(c = '"' || c = apos || c = '\n')

/-- Characters matched by the optional `["']?` delimiters. -/
def isQuoteChar (c : Char) : Bool := c = '"' || c = apos

/-- The last character of `w` that is not a newline, as a one-character
capture; `none` when there is no such character.  This is what the capture
group `([^"'\n]+)` produces once the greedy `\s*` in front of it backtracks
over an all-whitespace tail (the group then matches exactly one whitespace
character, stopping at the newline or quote that follows). -/
def lastNonNl (w : Str) : Option Str :=
  match w.reverse.dropWhile (· = '\n') with
  | [] => none
  | c :: _ => some [c]

/-- Capture of the regex fragment `\s*["']?([^"'\n]+)["']?` applied at the
start of `s`, reproducing the greedy/backtracking behaviour of the JavaScript
engine (see `extractTitleFromLine` / `extractValueFromLine` in the source):
maximal whitespace run first, then an optional opening quote, then a maximal
nonempty run of value characters; if the run after the quote is empty the
engine backtracks into the whitespace run. -/
def matchValue (s : Str) : Option Str :=
  let w := s.takeWhile isWs
  let t := s.dropWhile isWs
  match t with
  | [] => lastNonNl w
  | c :: rest =>
    if isQuoteChar c then
      match rest.takeWhile isValChar with
      | [] => lastNonNl w
      | r => some r
    else some (t.takeWhile isValChar)

/-- Scan of `line.match(/title:\s*["']?([^"'\n]+)["']?/i)`: leftmost
occurrence of the literal `title:` (case-insensitive) whose tail matches the
value fragment; on failure the engine retries from the next position. -/
def findKeyMatch : Nat → Str → Option Str
  | 0, _ => none
  | fuel + 1, s =>
    if (s.take 6).map Char.toLower = str "title:" then
      match matchValue (s.drop 6) with
      | some cap => some cap
      | none =>
        match s with
        | [] => none
        | _ :: r => findKeyMatch fuel r
    else
      match s with
      | [] => none
      | _ :: r => findKeyMatch fuel r

/-- JavaScript `extractTitleFromLine` of `src/unnamed/part_001` (returns the
empty string when the regex does not match). -/
def extractTitleFromLine (line : Str) : Str :=
  match findKeyMatch line.length line with
  | some cap => trim cap
  | none => []

/-- Scan of `line.match(/:\s*["']?([^"'\n]+)["']?/i)`: leftmost colon whose
tail matches the value fragment. -/
def findColonMatch : Nat → Str → Option Str
  | 0, _ => none
  | fuel + 1, s =>
    match s with
    | [] => none
    | c :: r =>
      if c = ':' then
        match matchValue r with
        | some cap => some cap
        | none => findColonMatch fuel r
      else findColonMatch fuel r

/-- JavaScript `extractValueFromLine` of `src/unnamed/part_001`. -/
def extractValueFromLine (line : Str) : Str :=
  match findColonMatch line.length line with
  | some cap => trim cap
  | none => []

/-- Capture of `\s+(.+)$` applied after a `#` at a line start, for the
multiline regex `/^#\s+(.+)$/m` of `extractTitleFromBody`.  The `\s+` may
span line breaks (JavaScript `\s` matches `\n`); when everything after the
`#` is whitespace the engine backtracks until the dot class can match one
trailing non-newline whitespace character. -/
def matchHashRest (s : Str) : Option Str :=
  let w := s.takeWhile isWs
  let t := s.dropWhile isWs
  if w = [] then none
  else if t = [] then
    match (s.drop 1).reverse.dropWhile (· = '\n') with
    | [] => none
    | c :: _ => some [c]
  else some (t.takeWhile (· ≠ '\n'))

/-- Drop the current line and its terminating newline. -/
def dropLine (s : Str) : Str :=
  match s.dropWhile (· ≠ '\n') with
  | [] => []
  | _ :: r => r

/-- Scan of `body.match(/^#\s+(.+)$/m)`: try every line start whose first
character is `#`. -/
def findH1Go : Nat → Str → Option Str
  | 0, _ => none
  | fuel + 1, s =>
    match s with
    | [] => none
    | '\n' :: r => findH1Go fuel r
    | '#' :: r =>
      match matchHashRest r with
      | some cap => some cap
      | none => findH1Go fuel (dropLine ('#' :: r))
    | c :: r => findH1Go fuel (dropLine (c :: r))

/-- First match of the multiline top-level-heading regex in `body`. -/
def findH1 (body : Str) : Option Str := findH1Go body.length body

/-- JavaScript `firstLine.trim().replace(/^#+\s*/, '')`: strip one leading
run of `#` markers together with the whitespace following it. -/
def stripHeadingMarkers (s : Str) : Str :=
  match s with
  | '#' :: _ => (s.dropWhile (· = '#')).dropWhile isWs
  | _ => s

/-- JavaScript `extractTitleFromBody` of `src/unnamed/part_001`: first
multiline `^#\s+(.+)$` match, else the first non-blank line with leading
heading markers stripped, else the placeholder. -/
def extractTitleFromBody (body : Str) : Str :=
  match findH1 body with
  | some cap => trim cap
  | none =>
    match (splitNl body).find? (fun l => !(trim l).isEmpty) with
    | some l => stripHeadingMarkers (trim l)
    | none => str "Untitled Article"

/-- JavaScript `/^#\s+/.test(line)` on a single (newline-free) line. -/
def isH1Test (line : Str) : Bool :=
  match line with
  | '#' :: c :: _ => isWs c
  | _ => false

/-- Loop body of `extractDescriptionFromBody`: find the first non-blank line
that appears after the first `^#\s+` line and does not itself start with
`#`. -/
def descScan : List Str → Bool → Option Str
  | [], _ => none
  | l :: rest, foundH1 =>
    if !foundH1 && isH1Test l then descScan rest true
    else if foundH1 && !(trim l).isEmpty && !((str "#").isPrefixOf l) then some (trim l)
    else descScan rest foundH1

/-- JavaScript `extractTitleFromBody`-referencing fallback string
`Learn more about <title, lowercased>.`. -/
def learnMoreFallback (body : Str) : Str :=
  str "Learn more about " ++ (extractTitleFromBody body).map Char.toLower ++ str "."

/-- JavaScript `extractDescriptionFromBody` of `src/unnamed/part_001`. -/
def extractDescriptionFromBody (body : Str) : Str :=
  match descScan (splitNl body) false with
  | some d => d
  | none => learnMoreFallback body

/-- JavaScript `s.includes(p)`: substring containment. -/
def containsStr (p : Str) : Str → Bool
  | [] => p.isPrefixOf []
  | c :: rest => p.isPrefixOf (c :: rest) || containsStr p rest

/-- The ordered keyword-to-emoji table of `addEmojiToTitle` (JavaScript
object literal; string-keyed property order is insertion order). -/
def emojiMap : List (Str × Str) :=
  [ (str "ai", str "🤖")
  , (str "artificial intelligence", str "🤖")
  , (str "machine learning", str "🧠")
  , (str "tech", str "💻")
  , (str "technology", str "💻")
  , (str "programming", str "⚡")
  , (str "coding", str "⚡")
  , (str "web", str "🌐")
  , (str "design", str "🎨")
  , (str "writing", str "✍️")
  , (str "blog", str "📝")
  , (str "marketing", str "📈")
  , (str "business", str "💼")
  , (str "finance", str "💰")
  , (str "health", str "🏥")
  , (str "fitness", str "💪")
  , (str "food", str "🍽️")
  , (str "travel", str "✈️")
  , (str "music", str "🎵")
  , (str "gaming", str "🎮")
  , (str "sports", str "⚽")
  , (str "education", str "📚")
  , (str "science", str "🔬")
  , (str "space", str "🚀")
  , (str "environment", str "🌱")
  , (str "sustainability", str "🌱") ]

/-- The own properties of `Object.prototype`, paired with the string each
value yields inside a template literal on Node/V8: plain JavaScript object
property reads fall back to the prototype chain, so `emojiMap[key]` for one
of these keys returns the inherited method (or, for `__proto__`, the
prototype object itself), every one of which is truthy. -/
def protoProps : List (Str × Str) :=
  [ (str "constructor", str "function Object() \x7b [native code] \x7d")
  , (str "__defineGetter__", str "function __defineGetter__() \x7b [native code] \x7d")
  , (str "__defineSetter__", str "function __defineSetter__() \x7b [native code] \x7d")
  , (str "hasOwnProperty", str "function hasOwnProperty() \x7b [native code] \x7d")
  , (str "__lookupGetter__", str "function __lookupGetter__() \x7b [native code] \x7d")
  , (str "__lookupSetter__", str "function __lookupSetter__() \x7b [native code] \x7d")
  , (str "isPrototypeOf", str "function isPrototypeOf() \x7b [native code] \x7d")
  , (str "propertyIsEnumerable",
      str "function propertyIsEnumerable() \x7b [native code] \x7d")
  , (str "toString", str "function toString() \x7b [native code] \x7d")
  , (str "valueOf", str "function valueOf() \x7b [native code] \x7d")
  , (str "__proto__", str "[object Object]")
  , (str "toLocaleString", str "function toLocaleString() \x7b [native code] \x7d") ]

/-- JavaScript property lookup `emojiMap[lowerTag]`: the object's own keys
first, then the prototype chain (`Object.prototype`), whose hits are coerced
to strings by the template literal; every modelled value is truthy, and an
absent key gives `undefined` (falsy), here `none`. -/
def lookupEmoji (key : Str) : Option Str :=
  ((emojiMap ++ protoProps).find? (fun p => p.1 = key)).map (·.2)

/-- JavaScript `addEmojiToTitle` of `src/unnamed/part_001`: first tag whose
lowercased form is a truthy property read on the table (an own key, or an
inherited `Object.prototype` property such as `constructor`), else the first
table keyword contained in the lowercased prompt (`Object.entries` sees own
properties only), else the (unreachable, kept for fidelity) common-pattern
defaults, else the fallback pencil emoji.  Always returns the prefix, a
space, and the given title. -/
def addEmojiToTitle (title : Str) (tags : List Str) (prompt : Str) : Str :=
  match tags.findSome? (fun tag => lookupEmoji (tag.map Char.toLower)) with
  | some e => e ++ str " " ++ title
  | none =>
    let lowerPrompt := prompt.map Char.toLower
    match emojiMap.findSome?
        (fun p => if containsStr p.1 lowerPrompt then some p.2 else none) with
    | some e => e ++ str " " ++ title
    | none =>
      if containsStr (str "ai") lowerPrompt
          || containsStr (str "artificial intelligence") lowerPrompt then
        str "🤖 " ++ title
      else if containsStr (str "tech") lowerPrompt
          || containsStr (str "programming") lowerPrompt then
        str "💻 " ++ title
      else if containsStr (str "writing") lowerPrompt
          || containsStr (str "blog") lowerPrompt then
        str "✍️ " ++ title
      else str "📝 " ++ title

/-- JavaScript `str.replace(/"/g, '\\"')`. -/
def escQuotes (s : Str) : Str :=
  s.flatMap (fun c => if c = '"' then [bslash, '"'] else [c])

/-- JavaScript `str.replace(/\n/g, ' ')`. -/
def nlToSpace (s : Str) : Str :=
  s.map (fun c => if c = '\n' then ' ' else c)

/-- JavaScript `escapeYamlString` of `src/unnamed/part_001`: escape double
quotes, replace newlines by spaces, trim; the empty string maps to itself. -/
def escapeYamlString (s : Str) : Str :=
  if s = [] then [] else trim (nlToSpace (escQuotes s))

/-- Case-insensitive test for the literal `title:` or `summary:` at the
start of `s` (the `(Title|Summary):` alternative of the sanitizer regex). -/
def labelAt (s : Str) : Bool :=
  (s.take 6).map Char.toLower = str "title:" || (s.take 8).map Char.toLower = str "summary:"

/-- One attempt of the multiline regex `/^(#+\s*)?(Title|Summary):.*$/gim` at
a line start: either the label is there directly, or a nonempty run of `#`
markers followed by whitespace (which, `\s` matching `\n`, may span line
breaks) leads to it.  On success the whole match — up to the end of the line
holding the label — is consumed and the remaining suffix is returned. -/
def matchLabelAt (s : Str) : Option Str :=
  if labelAt s then some (s.dropWhile (· ≠ '\n'))
  else if s.takeWhile (· = '#') = [] then none
  else if labelAt ((s.dropWhile (· = '#')).dropWhile isWs) then
    some ((((s.dropWhile (· = '#')).dropWhile isWs)).dropWhile (· ≠ '\n'))
  else none

/-- Global replacement `body.replace(/^(#+\s*)?(Title|Summary):.*$/gim, '')`:
scan line start by line start, removing every match. -/
def removeLabelsGo : Nat → Str → Str
  | 0, s => s
  | fuel + 1, s =>
    match matchLabelAt s with
    | some rest =>
      match rest with
      | [] => []
      | c :: r => c :: removeLabelsGo fuel r
    | none =>
      match s.dropWhile (· ≠ '\n') with
      | [] => s
      | _ :: r => s.takeWhile (· ≠ '\n') ++ '\n' :: removeLabelsGo fuel r

/-- The sanitizer pass removing redundant `Title:`/`Summary:` label lines. -/
def removeLabels (s : Str) : Str := removeLabelsGo s.length s

/-- Search for the closing `**` of the lazy group in `/\*\*(.*?)\*\*/g`: the
shortest run of non-newline characters followed by `**`. -/
def findClose : Str → Option (Str × Str)
  | '*' :: '*' :: rest => some ([], rest)
  | '\n' :: _ => none
  | [] => none
  | c :: rest => (findClose rest).map (fun p => (c :: p.1, p.2))

/-- Global replacement `body.replace(/\*\*(.*?)\*\*/g, '$1')`. -/
def removeBoldGo : Nat → Str → Str
  | 0, s => s
  | fuel + 1, s =>
    match s with
    | '*' :: '*' :: rest =>
      match findClose rest with
      | some (content, after) => content ++ removeBoldGo fuel after
      | none => '*' :: removeBoldGo fuel ('*' :: rest)
    | c :: rest => c :: removeBoldGo fuel rest
    | [] => []

/-- The sanitizer pass removing bold markers while keeping their content. -/
def removeBold (s : Str) : Str := removeBoldGo s.length s

/-- Global replacement `body.replace(/\n{3,}/g, '\n\n')`: every maximal run
of three or more newlines collapses to exactly two. -/
def collapseNlGo : Nat → Str → Str
  | 0, s => s
  | fuel + 1, s =>
    match s with
    | [] => []
    | '\n' :: _ =>
      let run := s.takeWhile (· = '\n')
      (if 3 ≤ run.length then str "\n\n" else run) ++
        collapseNlGo fuel (s.dropWhile (· = '\n'))
    | c :: rest => c :: collapseNlGo fuel rest

/-- The sanitizer pass collapsing blank-line runs. -/
def collapseNl (s : Str) : Str := collapseNlGo s.length s

/-- The body clean-up chain of `fixFrontmatterFormat` (lines 180-183 of
`src/unnamed/part_001`): remove label lines, strip bold markers, collapse
newline runs, trim. -/
def cleanBody (b : Str) : Str := trim (collapseNl (removeBold (removeLabels b)))

/-- One iteration of the frontmatter field-extraction loop of
`fixFrontmatterFormat` (lines 156-165 of `src/unnamed/part_001`): a matching
line reassigns the corresponding field; stray keys (for instance `date:` or
`tags:`) are ignored. -/
def fmStep (acc : Str × Str × Str) (line : Str) : Str × Str × Str :=
  let t := trim line
  if (str "title:").isPrefixOf t then (extractTitleFromLine line, acc.2.1, acc.2.2)
  else if (str "description:").isPrefixOf t then (acc.1, extractValueFromLine line, acc.2.2)
  else if (str "cover:").isPrefixOf t then (acc.1, acc.2.1, extractValueFromLine line)
  else acc

/-- The whole extraction loop; the last matching line wins.  Result:
(title, description, cover). -/
def fmFold (lines : List Str) : Str × Str × Str := lines.foldl fmStep ([], [], [])

/-- Lines 142-169 of `src/unnamed/part_001`: split the draft on `---`; with
three or more parts, parse the frontmatter block (`parts[1]`) line by line
and rejoin everything after the second separator as the body; otherwise the
whole draft (rejoined) is the body.  Result: (title, description, cover,
body), each possibly empty. -/
def parseDraft (content : Str) : Str × Str × Str × Str :=
  let parts := splitDashes content
  if 3 ≤ parts.length then
    let fm := fmFold (splitNl (trim (parts.getD 1 [])))
    (fm.1, fm.2.1, fm.2.2, trim (joinDashes (parts.drop 2)))
  else
    ([], [], [], trim (joinDashes parts))

/-- Line 172 of `src/unnamed/part_001`: `if (!title) title = extractTitleFromBody(body)`. -/
def resolvedTitle (content : Str) : Str :=
  let p := parseDraft content
  if p.1 = [] then extractTitleFromBody p.2.2.2 else p.1

/-- Line 173 of `src/unnamed/part_001`: description fallback. -/
def resolvedDesc (content : Str) : Str :=
  let p := parseDraft content
  if p.2.1 = [] then extractDescriptionFromBody p.2.2.2 else p.2.1

/-- The cover value carried into the header (line 174, `if (!cover) cover = ''`,
is the identity on the extracted value). -/
def coverValue (content : Str) : Str := (parseDraft content).2.2.1

/-- Line 177 of `src/unnamed/part_001`: the emoji-decorated title. -/
def decoratedTitle (content : Str) (tags : List Str) (prompt : Str) : Str :=
  addEmojiToTitle (resolvedTitle content) tags prompt

/-- Lines 185-188 of `src/unnamed/part_001`: ensure the body starts with
`# ` by prepending an H1 built from the decorated title when it does not. -/
def finalBody (content : Str) (tags : List Str) (prompt : Str) : Str :=
  let b := cleanBody (parseDraft content).2.2.2
  if (str "# ").isPrefixOf b then b
  else str "# " ++ decoratedTitle content tags prompt ++ str "\n\n" ++ b

/-- JavaScript `array.join(', ')`. -/
def joinCommaSpace : List Str → Str
  | [] => []
  | [x] => x
  | x :: y :: rest => x ++ str ", " ++ joinCommaSpace (y :: rest)

/-- The rendered `tags` list of the header: `tags.map(t => `"${escapeYamlString(t.trim())}"`).join(', ')`. -/
def renderTags (tags : List Str) : Str :=
  joinCommaSpace (tags.map (fun t => str "\"" ++ escapeYamlString (trim t) ++ str "\""))

/-- The serialized header-plus-body layout of lines 190-202 of
`src/unnamed/part_001`: it equals
`['---', 'title: "T"', 'description: "D"', 'date: DT', 'tags: [TG]',
'cover: "C"', '---', ''].join('\n')`, so the closing `---` line is followed
by exactly one newline and then the body. -/
def composeYaml (T D dt tg C : Str) : Str :=
  str "---\n" ++ (str "title: \"" ++ T ++ str "\"\n")
    ++ (str "description: \"" ++ D ++ str "\"\n")
    ++ (str "date: " ++ dt ++ str "\n")
    ++ (str "tags: [" ++ tg ++ str "]\n")
    ++ (str "cover: \"" ++ C ++ str "\"\n")
    ++ str "---\n"

/-- JavaScript `fixFrontmatterFormat(content, date, tags, prompt)` of
`src/unnamed/part_001` (lines 142-203). -/
def fixFrontmatterFormat (content date : Str) (tags : List Str) (prompt : Str) : Str :=
  composeYaml (escapeYamlString (decoratedTitle content tags prompt))
      (escapeYamlString (resolvedDesc content)) date (renderTags tags) (coverValue content)
    ++ finalBody content tags prompt

/-- The dynamically-typed `tags` argument of the JavaScript function: either
an actual array of strings or some non-sequence value. -/
inductive TagsArg where
  | arr (tags : List Str)
  | notSeq
deriving DecidableEq

/-- The one failure the engine can signal: the canonical-tags caller
contract violation (in JavaScript, `for (const tag of tags)` /
`tags.map(...)` raise a `TypeError` when `tags` is not iterable; every other
input degrades to a fallback). -/
inductive InvalidInput where
  | invalidTags
deriving DecidableEq

/-- `fixFrontmatterFormat` over the dynamically-typed tags argument: a
non-sequence `tags` raises; string inputs always produce the header. -/
def fixFrontmatterFormatE (content date : Str) (tags : TagsArg) (prompt : Str) :
    Except InvalidInput Str :=
  match tags with
  | .notSeq => .error .invalidTags
  | .arr ts => .ok (fixFrontmatterFormat content date ts prompt)

/-- JavaScript `updateArticleFrontmatter` (line 377-379 of
`src/unnamed/part_001` and line 290-292 of `src/server.js`):
`content.replace(/cover:\s*.*/g, `cover: "/covers/${imageFilename}"`)`.
Each occurrence of the literal `cover:` — at any position, also inside a
longer token — followed by a greedy whitespace run (`\s` matches `\n`, so
the run may span line breaks) and then the remainder of that line is
replaced.  The model inserts the replacement text literally, which matches
JavaScript for image file names without a dollar character (the callers only
ever pass `article-<date>-<id>.png`). -/
def replaceCoverGo (repl : Str) : Nat → Str → Str
  | 0, s => s
  | fuel + 1, s =>
    if (str "cover:").isPrefixOf s then
      repl ++ replaceCoverGo repl fuel (((s.drop 6).dropWhile isWs).dropWhile (· ≠ '\n'))
    else
      match s with
      | [] => []
      | c :: r => c :: replaceCoverGo repl fuel r

/-- JavaScript `updateArticleFrontmatter(content, imageFilename)`. -/
def updateArticleFrontmatter (content imageFilename : Str) : Str :=
  replaceCoverGo (str "cover: \"/covers/" ++ imageFilename ++ str "\"") content.length content

/-- Modelled from claim C10's wording (for comparison with the source
function): replace every substring occurrence of `cover:` followed by the
rest of that line — never crossing a line break — by the new cover line. -/
def claimCoverReplaceGo (repl : Str) : Nat → Str → Str
  | 0, s => s
  | fuel + 1, s =>
    if (str "cover:").isPrefixOf s then
      repl ++ claimCoverReplaceGo repl fuel ((s.drop 6).dropWhile (· ≠ '\n'))
    else
      match s with
      | [] => []
      | c :: r => c :: claimCoverReplaceGo repl fuel r

/-- Claim C10's reading of `updateArticleFrontmatter`. -/
def claimCoverReplace (content imageFilename : Str) : Str :=
  claimCoverReplaceGo (str "cover: \"/covers/" ++ imageFilename ++ str "\"")
    content.length content

/-- A line matching the redundant-label pattern of the sanitizer, in the
per-line sense of the specification: an optional heading-marker prefix
(a run of `#` followed by whitespace) and then `Title:` or `Summary:`,
case-insensitively. -/
def lineIsLabel (line : Str) : Bool :=
  labelAt line ||
    (!(line.takeWhile (· = '#')).isEmpty &&
      labelAt ((line.dropWhile (· = '#')).dropWhile isWs))

/-- Syntactic well-formedness of a double-quoted header value under the
escaping convention of `escapeYamlString`: every double quote is immediately
preceded by a backslash (auxiliary scan carrying the previous character). -/
def quotesOkAux : Char → Str → Bool
  | _, [] => true
  | prev, c :: rest => (if c = '"' then decide (prev = bslash) else true) && quotesOkAux c rest

/-- Every double quote in `s` is immediately preceded by a backslash. -/
def quotesOk : Str → Bool
  | [] => true
  | c :: rest => (if c = '"' then false else true) && quotesOkAux c rest

theorem mem_dropWhile_of_mem {p : Char → Bool} {c : Char} {l : Str}
    (hc : c ∈ l) (hpc : p c = false) : c ∈ l.dropWhile p := by
  induction l with
  | nil => cases hc
  | cons a t ih =>
    rcases List.mem_cons.mp hc with rfl | ht
    · simp [List.dropWhile_cons, hpc]
    · rw [List.dropWhile_cons]
      cases hpa : p a with
      | true => simpa using ih ht
      | false => simpa using Or.inr ht

theorem mem_of_mem_trimL {c : Char} {l : Str} (h : c ∈ trimL l) : c ∈ l :=
  (List.dropWhile_suffix isWs).subset h

theorem mem_of_mem_trimR {c : Char} {l : Str} (h : c ∈ trimR l) : c ∈ l := by
  have : c ∈ l.reverse.dropWhile isWs := by simpa [trimR] using h
  simpa using (List.dropWhile_suffix isWs).subset this

theorem mem_of_mem_trim {c : Char} {s : Str} (h : c ∈ trim s) : c ∈ s :=
  mem_of_mem_trimL (mem_of_mem_trimR h)

theorem trim_ne_nil_of_mem {c : Char} {s : Str} (hc : c ∈ s) (hw : isWs c = false) :
    trim s ≠ [] := by
  have h1 : c ∈ trimL s := mem_dropWhile_of_mem hc hw
  have h2 : c ∈ (trimL s).reverse.dropWhile isWs :=
    mem_dropWhile_of_mem (by simpa using h1) hw
  intro hnil
  rw [trim, trimR, List.reverse_eq_nil_iff] at hnil
  rw [hnil] at h2
  cases h2

theorem trimR_prefix (l : Str) : trimR l <+: l := by
  rw [← List.reverse_suffix]
  simpa [trimR] using List.dropWhile_suffix (l := l.reverse) isWs

theorem trim_head_not_ws {s : Str} {c : Char} {t : Str} (h : trim s = c :: t) :
    isWs c = false := by
  rcases trimR_prefix (trimL s) with ⟨u, hu⟩
  rw [trim] at h
  have hL : trimL s = c :: (t ++ u) := by rw [← hu, h]; simp
  have h2 : (s.dropWhile isWs).head? = some c := by
    rw [trimL] at hL; rw [hL]; rfl
  have h3 := List.head?_dropWhile_not isWs s
  rw [h2] at h3
  exact h3

theorem nlToSpace_nl_not_mem (l : Str) : '\n' ∉ nlToSpace l := by
  intro h
  rcases List.mem_map.mp h with ⟨a, _, ha⟩
  by_cases h0 : a = '\n' <;> simp [h0] at ha

theorem escape_nl_not_mem (s : Str) : '\n' ∉ escapeYamlString s := by
  rw [escapeYamlString]
  split
  · simp
  · intro h
    exact nlToSpace_nl_not_mem _ (mem_of_mem_trim h)

theorem escape_ne_nil {c : Char} {s : Str} (hc : c ∈ s) (hw : isWs c = false) :
    escapeYamlString s ≠ [] := by
  have hq : (if c = '"' then bslash else c) ∈ escQuotes s := by
    rw [escQuotes]
    apply List.mem_flatMap.mpr
    refine ⟨c, hc, ?_⟩
    by_cases h0 : c = '"' <;> simp [h0]
  have hwq : isWs (if c = '"' then bslash else c) = false := by
    by_cases h0 : c = '"' <;> simp [h0, hw]
    decide
  have hn : (if c = '"' then bslash else c) ∈ nlToSpace (escQuotes s) := by
    have hne : (if c = '"' then bslash else c) ≠ '\n' := by
      intro hx
      rw [hx] at hwq
      simp [isWs] at hwq
    have h2 := List.mem_map_of_mem (fun x => if x = '\n' then ' ' else x) hq
    rw [nlToSpace]
    simpa only [if_neg hne] using h2
  rw [escapeYamlString]
  split
  · rename_i hs
    rw [hs] at hc
    cases hc
  · exact trim_ne_nil_of_mem hn hwq

theorem quotesOkAux_escQuotes (s : Str) : ∀ prev, quotesOkAux prev (escQuotes s) = true := by
  induction s with
  | nil => intro prev; rfl
  | cons c rest ih =>
    intro prev
    by_cases h0 : c = '"'
    · simp only [escQuotes, List.flatMap_cons, h0, if_pos rfl]
      show quotesOkAux prev (bslash :: '"' :: escQuotes rest) = true
      show ((if bslash = '"' then decide (prev = bslash) else true) &&
        quotesOkAux bslash ('"' :: escQuotes rest)) = true
      rw [if_neg (by decide)]
      show (true && ((if ('"' : Char) = '"' then decide (bslash = bslash) else true) &&
        quotesOkAux '"' (escQuotes rest))) = true
      simp [ih '"']
    · simp only [escQuotes, List.flatMap_cons, if_neg h0]
      show quotesOkAux prev (c :: escQuotes rest) = true
      show ((if c = '"' then decide (prev = bslash) else true) &&
        quotesOkAux c (escQuotes rest)) = true
      rw [if_neg h0]
      simp [ih c]

theorem escQuotes_head_ne {s : Str} {c : Char} {t : Str} (h : escQuotes s = c :: t) :
    c ≠ '"' := by
  cases s with
  | nil => cases h
  | cons a rest =>
    by_cases h0 : a = '"'
    · rw [escQuotes, List.flatMap_cons, if_pos h0] at h
      cases h
      decide
    · rw [escQuotes, List.flatMap_cons, if_neg h0] at h
      cases h
      exact h0

theorem quotesOk_escQuotes (s : Str) : quotesOk (escQuotes s) = true := by
  cases h : escQuotes s with
  | nil => rfl
  | cons c t =>
    have h1 := quotesOkAux_escQuotes s ' '
    rw [h] at h1
    show ((if c = '"' then false else true) && quotesOkAux c t) = true
    rw [if_neg (escQuotes_head_ne h)]
    show (true && quotesOkAux c t) = true
    have h2 : ((if c = '"' then decide ((' ' : Char) = bslash) else true) &&
        quotesOkAux c t) = true := h1
    rw [if_neg (escQuotes_head_ne h)] at h2
    simpa using h2

theorem nlToSpace_keeps_quote (c : Char) :
    ((if c = '\n' then ' ' else c) = '"') ↔ (c = '"') := by
  by_cases h0 : c = '\n'
  · subst h0; decide
  · simp [h0]

theorem nlToSpace_keeps_bslash (c : Char) :
    ((if c = '\n' then ' ' else c) = bslash) ↔ (c = bslash) := by
  by_cases h0 : c = '\n'
  · subst h0; decide
  · simp [h0]

theorem quotesOkAux_nlToSpace {l : Str} :
    ∀ prev, quotesOkAux prev l = true →
      quotesOkAux (if prev = '\n' then ' ' else prev) (nlToSpace l) = true := by
  induction l with
  | nil => intro prev _; rfl
  | cons c rest ih =>
    intro prev h
    have h' : ((if c = '"' then decide (prev = bslash) else true) &&
        quotesOkAux c rest) = true := h
    rw [Bool.and_eq_true] at h'
    show ((if (if c = '\n' then ' ' else c) = '"' then
        decide ((if prev = '\n' then ' ' else prev) = bslash) else true) &&
      quotesOkAux (if c = '\n' then ' ' else c) (nlToSpace rest)) = true
    rw [Bool.and_eq_true]
    constructor
    · by_cases hc : c = '"'
      · have hcn : c ≠ '\n' := by rw [hc]; decide
        rw [if_neg hcn, if_pos hc]
        rw [if_pos hc] at h'
        have hp : prev = bslash := by simpa using h'.1
        have hpn : prev ≠ '\n' := by rw [hp]; decide
        rw [if_neg hpn]
        exact h'.1
      · have : ((if c = '\n' then ' ' else c) = '"') = False := by
          rw [nlToSpace_keeps_quote]
          simp [hc]
        rw [if_neg (by simp [this])]
    · exact ih c h'.2

theorem quotesOk_nlToSpace {l : Str} (h : quotesOk l = true) :
    quotesOk (nlToSpace l) = true := by
  cases l with
  | nil => rfl
  | cons c rest =>
    have h' : ((if c = '"' then false else true) && quotesOkAux c rest) = true := h
    rw [Bool.and_eq_true] at h'
    have hc : c ≠ '"' := by
      intro hx
      rw [if_pos hx] at h'
      cases h'.1
    show ((if (if c = '\n' then ' ' else c) = '"' then false else true) &&
      quotesOkAux (if c = '\n' then ' ' else c) (nlToSpace rest)) = true
    rw [Bool.and_eq_true]
    constructor
    · have : ((if c = '\n' then ' ' else c) = '"') = False := by
        rw [nlToSpace_keeps_quote]
        simp [hc]
      rw [if_neg (by simp [this])]
    · exact quotesOkAux_nlToSpace c h'.2

theorem quotesOkAux_append_left {a b : Str} :
    ∀ prev, quotesOkAux prev (a ++ b) = true → quotesOkAux prev a = true := by
  induction a with
  | nil => intro prev _; rfl
  | cons c rest ih =>
    intro prev h
    have h' : ((if c = '"' then decide (prev = bslash) else true) &&
        quotesOkAux c (rest ++ b)) = true := h
    rw [Bool.and_eq_true] at h'
    show ((if c = '"' then decide (prev = bslash) else true) && quotesOkAux c rest) = true
    rw [Bool.and_eq_true]
    exact ⟨h'.1, ih c h'.2⟩

theorem quotesOk_of_aux {prev : Char} {l : Str} (h : quotesOkAux prev l = true)
    (hprev : prev ≠ bslash) : quotesOk l = true := by
  cases l with
  | nil => rfl
  | cons c rest =>
    have h' : ((if c = '"' then decide (prev = bslash) else true) &&
        quotesOkAux c rest) = true := h
    rw [Bool.and_eq_true] at h'
    have hc : c ≠ '"' := by
      intro hx
      rw [if_pos hx] at h'
      exact hprev (by simpa using h'.1)
    show ((if c = '"' then false else true) && quotesOkAux c rest) = true
    rw [if_neg hc, Bool.and_eq_true]
    exact ⟨rfl, h'.2⟩

theorem quotesOk_trimL {l : Str} (h : quotesOk l = true) : quotesOk (trimL l) = true := by
  induction l with
  | nil => exact h
  | cons c rest ih =>
    rw [trimL, List.dropWhile_cons]
    by_cases hw : isWs c = true
    · rw [if_pos hw]
      have h' : ((if c = '"' then false else true) && quotesOkAux c rest) = true := h
      rw [Bool.and_eq_true] at h'
      have hcb : c ≠ bslash := by
        intro hx
        rw [hx] at hw
        exact absurd hw (by decide)
      exact ih (quotesOk_of_aux h'.2 hcb)
    · rw [if_neg hw]
      exact h

theorem quotesOk_trimR {l : Str} (h : quotesOk l = true) : quotesOk (trimR l) = true := by
  rcases trimR_prefix l with ⟨u, hu⟩
  cases hT : trimR l with
  | nil => rfl
  | cons c t =>
    rw [hT] at hu
    rw [← hu] at h
    have h' : ((if c = '"' then false else true) && quotesOkAux c (t ++ u)) = true := h
    rw [Bool.and_eq_true] at h'
    show ((if c = '"' then false else true) && quotesOkAux c t) = true
    rw [Bool.and_eq_true]
    exact ⟨h'.1, quotesOkAux_append_left c h'.2⟩

theorem escape_quotesOk (s : Str) : quotesOk (escapeYamlString s) = true := by
  rw [escapeYamlString]
  split
  · rfl
  · exact quotesOk_trimR (quotesOk_trimL (quotesOk_nlToSpace (quotesOk_escQuotes s)))

/-- Every prefix string the decoration step can prepend: the table emoji,
the stringified inherited `Object.prototype` values a tag such as
"constructor" reaches, and the default and fallback symbols of the tail of
`addEmojiToTitle`. -/
def emojiPool : List Str :=
  (emojiMap ++ protoProps).map Prod.snd ++ [str "🤖", str "💻", str "✍️", str "📝"]

theorem emojiPool_good : ∀ v ∈ emojiPool, v ≠ [] ∧ ∃ c ∈ v, isWs c = false := by
  decide

theorem lookupEmoji_mem {k e : Str} (h : lookupEmoji k = some e) :
    e ∈ (emojiMap ++ protoProps).map Prod.snd := by
  rw [lookupEmoji] at h
  rcases Option.map_eq_some'.mp h with ⟨p, hp, hpe⟩
  exact hpe ▸ List.mem_map_of_mem Prod.snd (List.mem_of_find?_eq_some hp)

theorem addEmoji_shape (title : Str) (tags : List Str) (prompt : Str) :
    ∃ e, addEmojiToTitle title tags prompt = e ++ str " " ++ title ∧ e ∈ emojiPool := by
  cases h1 : tags.findSome? (fun tag => lookupEmoji (tag.map Char.toLower)) with
  | some e =>
    refine ⟨e, ?_, ?_⟩
    · simp only [addEmojiToTitle, h1]
    · rcases List.exists_of_findSome?_eq_some h1 with ⟨tag, _, htag⟩
      exact List.mem_append_left _ (lookupEmoji_mem htag)
  | none =>
    cases h2 : emojiMap.findSome?
        (fun p => if containsStr p.1 (prompt.map Char.toLower) then some p.2 else none) with
    | some e =>
      refine ⟨e, ?_, ?_⟩
      · simp only [addEmojiToTitle, h1, h2]
      · rcases List.exists_of_findSome?_eq_some h2 with ⟨p, hp, hpe⟩
        by_cases hc : containsStr p.1 (prompt.map Char.toLower) = true
        · rw [if_pos hc] at hpe
          exact List.mem_append_left _ ((Option.some.inj hpe) ▸
            List.mem_map_of_mem Prod.snd (List.mem_append_left _ hp))
        · rw [if_neg hc] at hpe
          cases hpe
    | none =>
      simp only [addEmojiToTitle, h1, h2]
      split_ifs
      · exact ⟨str "🤖", by rw [show str "🤖 " = str "🤖" ++ str " " from by decide],
          by decide⟩
      · exact ⟨str "💻", by rw [show str "💻 " = str "💻" ++ str " " from by decide],
          by decide⟩
      · exact ⟨str "✍️", by rw [show str "✍️ " = str "✍️" ++ str " " from by decide],
          by decide⟩
      · exact ⟨str "📝", by rw [show str "📝 " = str "📝" ++ str " " from by decide],
          by decide⟩

theorem decoratedTitle_has_nonws (content : Str) (tags : List Str) (prompt : Str) :
    ∃ c ∈ decoratedTitle content tags prompt, isWs c = false := by
  rw [decoratedTitle]
  rcases addEmoji_shape (resolvedTitle content) tags prompt with ⟨e, heq, hmem⟩
  rcases emojiPool_good e hmem with ⟨-, c, hc, hws⟩
  exact ⟨c, by rw [heq]; exact List.mem_append_left _ (List.mem_append_left _ hc), hws⟩

theorem isValChar_of_ws {c : Char} (hw : isWs c = true) (hn : c ≠ '\n') :
    isValChar c = true := by
  rw [isWs] at hw
  simp only [Bool.or_eq_true, decide_eq_true_eq] at hw
  rcases hw with ((((h | h) | h) | h) | h) | h <;> subst h <;>
    first
    | decide
    | exact absurd rfl hn

theorem lastNonNl_spec {w cap : Str} (h : lastNonNl w = some cap) :
    ∃ c, cap = [c] ∧ c ∈ w ∧ c ≠ '\n' := by
  rw [lastNonNl] at h
  cases hd : w.reverse.dropWhile (· = '\n') with
  | nil => rw [hd] at h; cases h
  | cons c t =>
    rw [hd] at h
    refine ⟨c, by cases h; rfl, ?_, ?_⟩
    · have hc : c ∈ w.reverse.dropWhile (· = '\n') := by rw [hd]; simp
      simpa using (List.dropWhile_suffix (fun x => x = '\n')).subset hc
    · have h3 := List.head?_dropWhile_not (fun x => x = '\n') w.reverse
      rw [hd] at h3
      simpa using h3

theorem matchValue_chars {s cap : Str} (h : matchValue s = some cap) :
    ∀ c ∈ cap, isValChar c = true := by
  rw [matchValue] at h
  split at h
  · rcases lastNonNl_spec h with ⟨c, rfl, hcw, hcn⟩
    intro x hx
    rcases List.mem_singleton.mp hx with rfl
    exact isValChar_of_ws (List.mem_takeWhile_imp hcw) hcn
  · rename_i c0 rest heq
    split at h
    · split at h
      · rcases lastNonNl_spec h with ⟨c, rfl, hcw, hcn⟩
        intro x hx
        rcases List.mem_singleton.mp hx with rfl
        exact isValChar_of_ws (List.mem_takeWhile_imp hcw) hcn
      · have hcap : cap = rest.takeWhile isValChar := by cases h; rfl
        intro x hx
        rw [hcap] at hx
        exact List.mem_takeWhile_imp hx
    · have hcap : cap = (s.dropWhile isWs).takeWhile isValChar := by cases h; rfl
      intro x hx
      rw [hcap] at hx
      exact List.mem_takeWhile_imp hx

theorem findColonMatch_value {s cap : Str} :
    ∀ {fuel : Nat}, findColonMatch fuel s = some cap → ∃ u, matchValue u = some cap := by
  intro fuel
  induction fuel generalizing s with
  | zero => intro h; cases h
  | succ n ih =>
    intro h
    simp only [findColonMatch] at h
    split at h
    · cases h
    · rename_i c r
      split at h
      · split at h
        · rename_i v hm
          exact ⟨r, by rw [hm]; cases h; rfl⟩
        · exact ih h
      · exact ih h

theorem findKeyMatch_value {s cap : Str} :
    ∀ {fuel : Nat}, findKeyMatch fuel s = some cap → ∃ u, matchValue u = some cap := by
  intro fuel
  induction fuel generalizing s with
  | zero => intro h; cases h
  | succ n ih =>
    intro h
    simp only [findKeyMatch] at h
    split at h
    · split at h
      · rename_i v hm
        exact ⟨s.drop 6, by rw [hm]; cases h; rfl⟩
      · split at h
        · cases h
        · exact ih h
    · split at h
      · cases h
      · exact ih h

/-- A value as produced by the line extractors: empty, or the trim of a
capture whose characters avoid quotes and newlines. -/
def GoodVal (v : Str) : Prop :=
  v = [] ∨ ∃ cap, v = trim cap ∧ ∀ c ∈ cap, isValChar c = true

theorem extractValueFromLine_good (line : Str) : GoodVal (extractValueFromLine line) := by
  rw [extractValueFromLine]
  cases h : findColonMatch line.length line with
  | none => exact Or.inl rfl
  | some cap =>
    rcases findColonMatch_value h with ⟨u, hu⟩
    exact Or.inr ⟨cap, rfl, matchValue_chars hu⟩

theorem extractTitleFromLine_good (line : Str) : GoodVal (extractTitleFromLine line) := by
  rw [extractTitleFromLine]
  cases h : findKeyMatch line.length line with
  | none => exact Or.inl rfl
  | some cap =>
    rcases findKeyMatch_value h with ⟨u, hu⟩
    exact Or.inr ⟨cap, rfl, matchValue_chars hu⟩

theorem fmStep_good {acc : Str × Str × Str} (line : Str)
    (h : GoodVal acc.1 ∧ GoodVal acc.2.1 ∧ GoodVal acc.2.2) :
    GoodVal (fmStep acc line).1 ∧ GoodVal (fmStep acc line).2.1 ∧
      GoodVal (fmStep acc line).2.2 := by
  rw [fmStep]
  split_ifs with h1 h2 h3
  · exact ⟨extractTitleFromLine_good line, h.2.1, h.2.2⟩
  · exact ⟨h.1, extractValueFromLine_good line, h.2.2⟩
  · exact ⟨h.1, h.2.1, extractValueFromLine_good line⟩
  · exact h

theorem fmFold_good (lines : List Str) :
    GoodVal (fmFold lines).1 ∧ GoodVal (fmFold lines).2.1 ∧ GoodVal (fmFold lines).2.2 := by
  rw [fmFold]
  have main : ∀ (ls : List Str) (acc : Str × Str × Str),
      GoodVal acc.1 ∧ GoodVal acc.2.1 ∧ GoodVal acc.2.2 →
      GoodVal (ls.foldl fmStep acc).1 ∧ GoodVal (ls.foldl fmStep acc).2.1 ∧
        GoodVal (ls.foldl fmStep acc).2.2 := by
    intro ls
    induction ls with
    | nil => intro acc h; exact h
    | cons l rest ih =>
      intro acc h
      rw [List.foldl_cons]
      exact ih (fmStep acc l) (fmStep_good l h)
  exact main lines ([], [], []) ⟨Or.inl rfl, Or.inl rfl, Or.inl rfl⟩

theorem parseDraft_desc_good (content : Str) : GoodVal (parseDraft content).2.1 := by
  rw [parseDraft]
  split
  · exact (fmFold_good _).2.1
  · exact Or.inl rfl

theorem parseDraft_cover_good (content : Str) : GoodVal (parseDraft content).2.2.1 := by
  rw [parseDraft]
  split
  · exact (fmFold_good _).2.2
  · exact Or.inl rfl

theorem descScan_spec :
    ∀ (ls : List Str) (b : Bool) (d : Str), descScan ls b = some d →
      ∃ l, d = trim l ∧ d ≠ [] := by
  intro ls
  induction ls with
  | nil => intro b d h; cases h
  | cons l rest ih =>
    intro b d h
    rw [descScan] at h
    split_ifs at h with h1 h2
    · exact ih true d h
    · refine ⟨l, by cases h; rfl, ?_⟩
      have h3 : (trim l).isEmpty = false := by
        simp only [Bool.and_eq_true] at h2
        simpa using h2.1.2
      have h4 : d = trim l := by cases h; rfl
      rw [h4]
      simpa [List.isEmpty_iff] using h3
    · exact ih b d h

theorem resolvedDesc_has_nonws (content : Str) :
    ∃ c ∈ resolvedDesc content, isWs c = false := by
  rw [resolvedDesc]
  split
  · cases h : descScan (splitNl (parseDraft content).2.2.2) false with
    | some d =>
      have hval : extractDescriptionFromBody (parseDraft content).2.2.2 = d := by
        rw [extractDescriptionFromBody, h]
      rw [hval]
      rcases descScan_spec _ _ _ h with ⟨l, hdl, hdn⟩
      cases hd : d with
      | nil => exact absurd hd hdn
      | cons c t =>
        refine ⟨c, List.mem_cons_self c t, ?_⟩
        rw [hd] at hdl
        exact trim_head_not_ws hdl.symm
    | none =>
      have hval : extractDescriptionFromBody (parseDraft content).2.2.2 =
          learnMoreFallback (parseDraft content).2.2.2 := by
        rw [extractDescriptionFromBody, h]
      rw [hval]
      refine ⟨'L', ?_, by decide⟩
      rw [learnMoreFallback]
      exact List.mem_append_left _ (List.mem_append_left _ (by decide))
  · rename_i hne
    rcases parseDraft_desc_good content with h0 | ⟨cap, hcap, hchars⟩
    · exact absurd h0 hne
    · cases hd : (parseDraft content).2.1 with
      | nil => exact absurd hd hne
      | cons c t =>
        refine ⟨c, List.mem_cons_self c t, ?_⟩
        rw [hd] at hcap
        exact trim_head_not_ws hcap.symm

theorem joinCommaSpace_nl_not_mem {ls : List Str} (h : ∀ x ∈ ls, '\n' ∉ x) :
    '\n' ∉ joinCommaSpace ls := by
  induction ls with
  | nil => simp [joinCommaSpace]
  | cons x rest ih =>
    cases rest with
    | nil => simpa [joinCommaSpace] using h x (by simp)
    | cons y t =>
      rw [joinCommaSpace]
      intro hm
      rcases List.mem_append.mp hm with hm1 | hm2
      · rcases List.mem_append.mp hm1 with hm3 | hm4
        · exact h x (by simp) hm3
        · revert hm4; decide
      · exact ih (fun z hz => h z (List.mem_cons_of_mem _ hz)) hm2

theorem renderTags_nl_not_mem (tags : List Str) : '\n' ∉ renderTags tags := by
  rw [renderTags]
  apply joinCommaSpace_nl_not_mem
  intro x hx
  rcases List.mem_map.mp hx with ⟨t, _, rfl⟩
  intro hm
  rcases List.mem_append.mp hm with hm1 | hm2
  · rcases List.mem_append.mp hm1 with hm3 | hm4
    · revert hm3; decide
    · exact escape_nl_not_mem _ hm4
  · revert hm2; decide

theorem goodVal_nl_not_mem {v : Str} (h : GoodVal v) : '\n' ∉ v := by
  rcases h with rfl | ⟨cap, rfl, hchars⟩
  · simp
  · intro hm
    have := hchars '\n' (mem_of_mem_trim hm)
    simp [isValChar] at this

theorem goodVal_quote_not_mem {v : Str} (h : GoodVal v) : '"' ∉ v := by
  rcases h with rfl | ⟨cap, rfl, hchars⟩
  · simp
  · intro hm
    have := hchars '"' (mem_of_mem_trim hm)
    simp [isValChar] at this

theorem splitNl_cons_ne {c : Char} (hc : c ≠ '\n') (rest : Str) :
    splitNl (c :: rest) =
      match splitNl rest with
      | seg :: segs => (c :: seg) :: segs
      | [] => [[c]] := by
  rw [splitNl.eq_def]
  split
  · rename_i h
    cases h
  · rename_i h
    rw [List.cons.injEq] at h
    exact absurd h.1 hc
  · rename_i c2 r2 h
    rw [List.cons.injEq] at h
    rw [h.1, h.2]

theorem splitNl_append_cons :
    ∀ (a b : Str), '\n' ∉ a → splitNl (a ++ '\n' :: b) = a :: splitNl b := by
  intro a
  induction a with
  | nil => intro b _; rfl
  | cons c t ih =>
    intro b hn
    have hc : c ≠ '\n' := fun h => hn (by rw [← h]; exact List.mem_cons_self c t)
    have ht : '\n' ∉ t := fun h => hn (List.mem_cons_of_mem c h)
    rw [List.cons_append, splitNl_cons_ne hc, ih b ht]

theorem splitNl_composeYaml {T D dt tg C B : Str}
    (hT : '\n' ∉ T) (hD : '\n' ∉ D) (hdt : '\n' ∉ dt) (htg : '\n' ∉ tg) (hC : '\n' ∉ C) :
    splitNl (composeYaml T D dt tg C ++ B) =
      str "---" :: (str "title: \"" ++ T ++ str "\"") ::
      (str "description: \"" ++ D ++ str "\"") :: (str "date: " ++ dt) ::
      (str "tags: [" ++ tg ++ str "]") :: (str "cover: \"" ++ C ++ str "\"") ::
      str "---" :: splitNl B := by
  have heq : composeYaml T D dt tg C ++ B =
      str "---" ++ '\n' :: ((str "title: \"" ++ T ++ str "\"") ++ '\n' ::
        ((str "description: \"" ++ D ++ str "\"") ++ '\n' :: ((str "date: " ++ dt) ++ '\n' ::
          ((str "tags: [" ++ tg ++ str "]") ++ '\n' ::
            ((str "cover: \"" ++ C ++ str "\"") ++ '\n' :: (str "---" ++ '\n' :: B)))))) := by
    rw [composeYaml]
    rw [show str "---\n" = str "---" ++ ['\n'] from by decide]
    rw [show str "\"\n" = str "\"" ++ ['\n'] from by decide]
    rw [show str "\n" = ['\n'] from by decide]
    rw [show str "]\n" = str "]" ++ ['\n'] from by decide]
    simp [List.append_assoc]
  rw [heq]
  have m1 : '\n' ∉ str "title: \"" ++ T ++ str "\"" := by
    intro h
    rcases List.mem_append.mp h with h1 | h1
    · rcases List.mem_append.mp h1 with h2 | h2
      · revert h2; decide
      · exact hT h2
    · revert h1; decide
  have m2 : '\n' ∉ str "description: \"" ++ D ++ str "\"" := by
    intro h
    rcases List.mem_append.mp h with h1 | h1
    · rcases List.mem_append.mp h1 with h2 | h2
      · revert h2; decide
      · exact hD h2
    · revert h1; decide
  have m3 : '\n' ∉ str "date: " ++ dt := by
    intro h
    rcases List.mem_append.mp h with h1 | h1
    · revert h1; decide
    · exact hdt h1
  have m4 : '\n' ∉ str "tags: [" ++ tg ++ str "]" := by
    intro h
    rcases List.mem_append.mp h with h1 | h1
    · rcases List.mem_append.mp h1 with h2 | h2
      · revert h2; decide
      · exact htg h2
    · revert h1; decide
  have m5 : '\n' ∉ str "cover: \"" ++ C ++ str "\"" := by
    intro h
    rcases List.mem_append.mp h with h1 | h1
    · rcases List.mem_append.mp h1 with h2 | h2
      · revert h2; decide
      · exact hC h2
    · revert h1; decide
  rw [splitNl_append_cons _ _ (by decide), splitNl_append_cons _ _ m1,
    splitNl_append_cons _ _ m2, splitNl_append_cons _ _ m3, splitNl_append_cons _ _ m4,
    splitNl_append_cons _ _ m5, splitNl_append_cons _ _ (by decide)]

/-- C1: for every draft text (also with no, partial or malformed header),
running the Reconciler with a canonical (newline-free) date, a canonical tag
list and a prompt yields a header containing all five keys `title,
description, date, tags, cover` in a syntactically valid form — values on a
single line, every double quote in the quoted title/description escaped —
with non-empty title and description. -/
theorem C1_header_complete_valid (content date : Str) (tags : List Str) (prompt : Str)
    (hdate : '\n' ∉ date) :
    ∃ T D C B, fixFrontmatterFormat content date tags prompt =
        composeYaml T D date (renderTags tags) C ++ B ∧
      T ≠ [] ∧ D ≠ [] ∧ '\n' ∉ T ∧ '\n' ∉ D ∧ quotesOk T = true ∧ quotesOk D = true ∧
      '\n' ∉ C ∧ '"' ∉ C ∧ '\n' ∉ renderTags tags ∧ ∀ c ∈ str "date: " ++ date, c ≠ '\n' := by
  refine ⟨escapeYamlString (decoratedTitle content tags prompt),
    escapeYamlString (resolvedDesc content), coverValue content,
    finalBody content tags prompt, rfl, ?_, ?_, escape_nl_not_mem _, escape_nl_not_mem _,
    escape_quotesOk _, escape_quotesOk _, ?_, ?_, renderTags_nl_not_mem tags, ?_⟩
  · rcases decoratedTitle_has_nonws content tags prompt with ⟨c, hc, hw⟩
    exact escape_ne_nil hc hw
  · rcases resolvedDesc_has_nonws content with ⟨c, hc, hw⟩
    exact escape_ne_nil hc hw
  · exact goodVal_nl_not_mem (parseDraft_cover_good content)
  · exact goodVal_quote_not_mem (parseDraft_cover_good content)
  · intro c hc
    rcases List.mem_append.mp hc with h | h
    · have hall : ∀ x ∈ str "date: ", x ≠ '\n' := by decide
      exact hall c h
    · exact fun he => hdate (he ▸ h)

/-- Witness for C1 at a concrete draft without any header block. -/
theorem C1_header_complete_valid_witness :
    ∃ T D C B, fixFrontmatterFormat (str "Hello world.") (str "2024-01-01")
        [str "tech"] (str "p") = composeYaml T D (str "2024-01-01")
        (renderTags [str "tech"]) C ++ B ∧
      T ≠ [] ∧ D ≠ [] ∧ '\n' ∉ T ∧ '\n' ∉ D ∧ quotesOk T = true ∧ quotesOk D = true ∧
      '\n' ∉ C ∧ '"' ∉ C ∧ '\n' ∉ renderTags [str "tech"] ∧
      ∀ c ∈ str "date: " ++ str "2024-01-01", c ≠ '\n' :=
  C1_header_complete_valid (str "Hello world.") (str "2024-01-01") [str "tech"] (str "p")
    (by decide)

/-- C2: the `date` line and the `tags` line of the Reconciler's output are
built from the caller-supplied canonical date and canonical tag list alone
(`renderTags` trims, escapes and double-quotes each tag in caller order) —
for every draft, never from values parsed out of the draft. -/
theorem C2_canonical_date_tags (content date : Str) (tags : List Str) (prompt : Str)
    (hdate : '\n' ∉ date) :
    (splitNl (fixFrontmatterFormat content date tags prompt)).getD 3 [] =
        str "date: " ++ date ∧
      (splitNl (fixFrontmatterFormat content date tags prompt)).getD 4 [] =
        str "tags: [" ++ renderTags tags ++ str "]" := by
  have hs := @splitNl_composeYaml (escapeYamlString (decoratedTitle content tags prompt))
    (escapeYamlString (resolvedDesc content)) date (renderTags tags)
    (coverValue content) (finalBody content tags prompt)
    (escape_nl_not_mem _) (escape_nl_not_mem _) hdate (renderTags_nl_not_mem tags)
    (goodVal_nl_not_mem (parseDraft_cover_good content))
  have hfix : fixFrontmatterFormat content date tags prompt =
      composeYaml (escapeYamlString (decoratedTitle content tags prompt))
        (escapeYamlString (resolvedDesc content)) date (renderTags tags)
        (coverValue content) ++ finalBody content tags prompt := rfl
  rw [hfix, hs]
  exact ⟨rfl, rfl⟩

/-- Witness for C2 at a concrete draft carrying its own date and tags lines. -/
theorem C2_canonical_date_tags_witness :
    (splitNl (fixFrontmatterFormat
        (str "---\ntitle: \"T\"\ndate: 1999-09-09\ntags: [\"junk\"]\n---\nBody.")
        (str "2024-01-01") [str "tech"] (str "p"))).getD 3 [] =
      str "date: " ++ str "2024-01-01" ∧
    (splitNl (fixFrontmatterFormat
        (str "---\ntitle: \"T\"\ndate: 1999-09-09\ntags: [\"junk\"]\n---\nBody.")
        (str "2024-01-01") [str "tech"] (str "p"))).getD 4 [] =
      str "tags: [" ++ renderTags [str "tech"] ++ str "]" :=
  C2_canonical_date_tags
    (str "---\ntitle: \"T\"\ndate: 1999-09-09\ntags: [\"junk\"]\n---\nBody.")
    (str "2024-01-01") [str "tech"] (str "p") (by decide)

/-- C4, counterexample: on the worked example of the specification (draft
`Title: Foo` / `# Foo` / `Some text.` / `**bold** more.`, canonical tag
`tech`), the decorated final title is `💻 Foo` but the output body keeps its
existing heading `# Foo`: the body does not start with the H1 of the
decorated title, contradicting the claim. -/
theorem C4_counterexample :
    fixFrontmatterFormat (str "Title: Foo\n\n# Foo\nSome text.\n**bold** more.")
        (str "2024-01-01") [str "tech"] (str "Write about tech") =
      str "---\ntitle: \"💻 Foo\"\ndescription: \"Some text.\"\ndate: 2024-01-01\ntags: [\"tech\"]\ncover: \"\"\n---\n# Foo\nSome text.\nbold more." ∧
    decoratedTitle (str "Title: Foo\n\n# Foo\nSome text.\n**bold** more.")
        [str "tech"] (str "Write about tech") = str "💻 Foo" ∧
    containsStr (str "# 💻 Foo")
      (fixFrontmatterFormat (str "Title: Foo\n\n# Foo\nSome text.\n**bold** more.")
        (str "2024-01-01") [str "tech"] (str "Write about tech")) = false := by
  refine ⟨by decide, by decide, by decide⟩

/-- C4, amended: the Reconciler's final body always begins with `# ` (some
top-level heading); when the cleaned body does not already start with `# `,
a heading equal to the decorated final title is prepended, but an
already-present leading heading is kept as-is and may differ from the final
title. -/
theorem C4_body_heading_amended (content : Str) (tags : List Str) (prompt : Str) :
    (str "# ").isPrefixOf (finalBody content tags prompt) = true ∧
    finalBody content tags prompt =
      (if (str "# ").isPrefixOf (cleanBody (parseDraft content).2.2.2) then
        cleanBody (parseDraft content).2.2.2
      else str "# " ++ decoratedTitle content tags prompt ++ str "\n\n" ++
        cleanBody (parseDraft content).2.2.2) := by
  constructor
  · rw [finalBody]
    split
    · rename_i h
      exact h
    · simp [List.isPrefixOf_iff_prefix, List.append_assoc]
  · rfl

/-- C5, counterexample: the serialized output of `fixFrontmatterFormat` in
`src/unnamed/part_001` has no blank line between the closing three-hyphen
line and the body (the closing `---` is followed by exactly one newline and
then the body's first line), contradicting the claimed wire format. -/
theorem C5_counterexample :
    fixFrontmatterFormat (str "Hello world.") (str "2024-01-01") [str "tech"] (str "p") =
      str "---\ntitle: \"💻 Hello world.\"\ndescription: \"Learn more about hello world..\"\ndate: 2024-01-01\ntags: [\"tech\"]\ncover: \"\"\n---\n# 💻 Hello world.\n\nHello world." ∧
    containsStr (str "---\n\n")
      (fixFrontmatterFormat (str "Hello world.") (str "2024-01-01") [str "tech"] (str "p")) =
      false := by
  refine ⟨by decide, by decide⟩

/-- C5, amended: the wire format of the Reconciler's output is a line of
exactly three hyphens, one key line per field in the fixed order `title,
description, date, tags, cover` (tags as a bracketed comma-separated list of
double-quoted strings), a closing three-hyphen line, and then immediately
the body — with no blank line in between. -/
theorem C5_wire_format_amended (content date : Str) (tags : List Str) (prompt : Str)
    (hdate : '\n' ∉ date) :
    splitNl (fixFrontmatterFormat content date tags prompt) =
      str "---" ::
      (str "title: \"" ++ escapeYamlString (decoratedTitle content tags prompt) ++ str "\"") ::
      (str "description: \"" ++ escapeYamlString (resolvedDesc content) ++ str "\"") ::
      (str "date: " ++ date) :: (str "tags: [" ++ renderTags tags ++ str "]") ::
      (str "cover: \"" ++ coverValue content ++ str "\"") :: str "---" ::
      splitNl (finalBody content tags prompt) :=
  splitNl_composeYaml (escape_nl_not_mem _) (escape_nl_not_mem _) hdate
    (renderTags_nl_not_mem tags) (goodVal_nl_not_mem (parseDraft_cover_good content))

/-- Witness for the amended C5 at a concrete draft. -/
theorem C5_wire_format_amended_witness :
    splitNl (fixFrontmatterFormat (str "Hi.") (str "2024-01-01") [str "tech"] (str "p")) =
      str "---" ::
      (str "title: \"" ++
        escapeYamlString (decoratedTitle (str "Hi.") [str "tech"] (str "p")) ++ str "\"") ::
      (str "description: \"" ++ escapeYamlString (resolvedDesc (str "Hi.")) ++ str "\"") ::
      (str "date: " ++ str "2024-01-01") ::
      (str "tags: [" ++ renderTags [str "tech"] ++ str "]") ::
      (str "cover: \"" ++ coverValue (str "Hi.") ++ str "\"") :: str "---" ::
      splitNl (finalBody (str "Hi.") [str "tech"] (str "p")) :=
  C5_wire_format_amended (str "Hi.") (str "2024-01-01") [str "tech"] (str "p") (by decide)

/-- C8: over the dynamically-typed tags argument, the Reconciler produces a
header for every string draft, date and prompt and every actual tag
sequence; its only failure mode is a non-sequence canonical-tags argument,
which signals the invalid-input error instead of producing a header.  That
no other input can fail is witnessed by the totality of
`fixFrontmatterFormat` itself. -/
theorem C8_error_policy (content date : Str) (prompt : Str) :
    (∀ tags : List Str, fixFrontmatterFormatE content date (.arr tags) prompt =
      .ok (fixFrontmatterFormat content date tags prompt)) ∧
    fixFrontmatterFormatE content date .notSeq prompt = .error .invalidTags ∧
    ∀ t : TagsArg, (fixFrontmatterFormatE content date t prompt).isOk =
      decide (t ≠ TagsArg.notSeq) := by
  refine ⟨fun tags => rfl, rfl, fun t => ?_⟩
  cases t <;> rfl

/-- C3, counterexample: running the Reconciler a second time on its own
output prepends a second emoji prefix.  For the draft with title `Foo` and
canonical tag `tech`, the first run titles the article `💻 Foo` and the
second run titles it `💻 💻 Foo` — two leading emoji tokens, not one. -/
theorem C3_counterexample :
    fixFrontmatterFormat
        (fixFrontmatterFormat (str "---\ntitle: \"Foo\"\ndescription: \"Bar\"\n---\nBody text here.")
          (str "2024-01-01") [str "tech"] (str "p"))
        (str "2024-01-01") [str "tech"] (str "p") =
      str "---\ntitle: \"💻 💻 Foo\"\ndescription: \"Bar\"\ndate: 2024-01-01\ntags: [\"tech\"]\ncover: \"\"\n---\n# 💻 Foo\n\nBody text here." ∧
    decoratedTitle
        (fixFrontmatterFormat (str "---\ntitle: \"Foo\"\ndescription: \"Bar\"\n---\nBody text here.")
          (str "2024-01-01") [str "tech"] (str "p"))
        [str "tech"] (str "p") = str "💻 " ++ str "💻 " ++ str "Foo" := by
  refine ⟨by decide, by decide⟩

/-- C3, amended: decoration is applied exactly once per invocation of the
Reconciler — `addEmojiToTitle` always prepends exactly one nonempty prefix
token and a space to whatever title it is given, the token drawn from
`emojiPool`: a table emoji, a default or fallback emoji, or, for a tag such
as "constructor" or "__proto__" whose lowercased form reaches an inherited
`Object.prototype` property, the stringified inherited value (shown here
concretely for the tag "constructor").  The pipeline invokes it once per
draft, so re-running the Reconciler on its own output prepends a second
prefix rather than keeping a single emoji. -/
theorem C3_emoji_once_per_run_amended (title : Str) (tags : List Str) (prompt : Str) :
    (∃ e, addEmojiToTitle title tags prompt = e ++ str " " ++ title ∧
      e ≠ [] ∧ e ∈ emojiPool) ∧
    addEmojiToTitle (str "Foo") [str "constructor"] (str "p") =
      str "function Object() \x7b [native code] \x7d Foo" := by
  refine ⟨?_, by decide⟩
  rcases addEmoji_shape title tags prompt with ⟨e, heq, hmem⟩
  exact ⟨e, heq, (emojiPool_good e hmem).1, hmem⟩

/-- C10, counterexample: on `cover:` followed directly by a line break, the
greedy `\s*` of `updateArticleFrontmatter` crosses the line break and the
replacement swallows the following line (`Hello`), while claim C10 predicts
that only the rest of the `cover:` line is replaced. -/
theorem C10_counterexample :
    updateArticleFrontmatter (str "cover:\nHello") (str "img.png") =
      str "cover: \"/covers/img.png\"" ∧
    claimCoverReplace (str "cover:\nHello") (str "img.png") =
      str "cover: \"/covers/img.png\"\nHello" ∧
    updateArticleFrontmatter (str "cover:\nHello") (str "img.png") ≠
      claimCoverReplace (str "cover:\nHello") (str "img.png") := by
  refine ⟨by decide, by decide, by decide⟩

/-- C10, amended: `updateArticleFrontmatter` rewrites every substring
occurrence of `cover:` — anywhere in the text, also inside longer tokens
such as `discover:` — followed by a greedy whitespace run (which may span
line breaks) and the remainder of that line, replacing each with the new
cover line; text containing no occurrence is returned unchanged. -/
theorem C10_cover_rewrite_amended (content imageFilename : Str)
    (h : containsStr (str "cover:") content = false) :
    updateArticleFrontmatter content imageFilename = content ∧
    updateArticleFrontmatter (str "# I\ndiscover: treasures\ncover: old.png\n")
        (str "new.png") =
      str "# I\ndiscover: \"/covers/new.png\"\ncover: \"/covers/new.png\"\n" := by
  constructor
  · rw [updateArticleFrontmatter]
    have main : ∀ s : Str, containsStr (str "cover:") s = false →
        ∀ repl, replaceCoverGo repl s.length s = s := by
      intro s
      induction s with
      | nil => intro _ repl; rfl
      | cons c r ih =>
        intro hc repl
        rw [containsStr] at hc
        rcases Bool.or_eq_false_iff.mp hc with ⟨h1, h2⟩
        show replaceCoverGo repl (r.length + 1) (c :: r) = c :: r
        rw [replaceCoverGo, if_neg (by simp [h1])]
        rw [ih h2 repl]
    exact main content h _
  · decide

theorem isValChar_quote_false {q : Char} (hq : isQuoteChar q = true) : isValChar q = false := by
  rw [isQuoteChar] at hq
  simp only [Bool.or_eq_true, decide_eq_true_eq] at hq
  rcases hq with h | h <;> subst h <;> decide

theorem takeWhile_stops {p : Char → Bool} {a b : Str} {q : Char}
    (ha : ∀ c ∈ a, p c = true) (hq : p q = false) :
    (a ++ q :: b).takeWhile p = a := by
  rw [List.takeWhile_append_of_pos ha, List.takeWhile_cons, hq]
  simp

theorem matchValue_after_quote {pre post : Str} {q : Char}
    (hq : isQuoteChar q = true) (hpre : pre ≠ [])
    (hchars : ∀ c ∈ pre, isValChar c = true) :
    matchValue (' ' :: '"' :: (pre ++ q :: post)) = some pre := by
  obtain ⟨y, ys, rfl⟩ : ∃ y ys, pre = y :: ys := by
    cases pre with
    | nil => exact absurd rfl hpre
    | cons y ys => exact ⟨y, ys, rfl⟩
  have h1 : (' ' :: '"' :: ((y :: ys) ++ q :: post)).dropWhile isWs =
      '"' :: ((y :: ys) ++ q :: post) := by
    rw [List.dropWhile_cons, List.dropWhile_cons]
    simp [show isWs ' ' = true from by decide, show isWs '"' = false from by decide]
  have htw : ((y :: ys) ++ q :: post).takeWhile isValChar = y :: ys :=
    takeWhile_stops hchars (isValChar_quote_false hq)
  rw [matchValue]
  simp only [h1, htw, show isQuoteChar '"' = true from by decide, if_pos]

theorem findKeyMatch_here {s cap : Str} (fuel : Nat)
    (hp : (s.take 6).map Char.toLower = str "title:")
    (hm : matchValue (s.drop 6) = some cap) : findKeyMatch (fuel + 1) s = some cap := by
  simp only [findKeyMatch, if_pos hp, hm]

theorem findColonMatch_here {s cap : Str} (hm : matchValue s = some cap) :
    findColonMatch (s.length + 1) (':' :: s) = some cap := by
  simp [findColonMatch, hm]

theorem findColonMatch_skip {a : Str} (hnc : ∀ c ∈ a, c ≠ ':') :
    ∀ b : Str, findColonMatch (a ++ b).length (a ++ b) = findColonMatch b.length b := by
  induction a with
  | nil => intro b; rfl
  | cons c r ih =>
    intro b
    have hc : c ≠ ':' := hnc c (by simp)
    rw [List.cons_append]
    show findColonMatch ((r ++ b).length + 1) (c :: (r ++ b)) = _
    simp only [findColonMatch, if_neg hc]
    exact ih (fun x hx => hnc x (List.mem_cons_of_mem c hx)) b

theorem dropWhile_length_le (p : Char → Bool) (l : Str) :
    (l.dropWhile p).length ≤ l.length :=
  (List.dropWhile_sublist p).length_le

theorem takeWhile_ne_nil_head {p : Char → Bool} {l : Str} (h : l.takeWhile p ≠ []) :
    ∃ c t, l = c :: t ∧ p c = true := by
  cases l with
  | nil => exact absurd rfl h
  | cons c t =>
    refine ⟨c, t, rfl, ?_⟩
    by_cases hp : p c = true
    · exact hp
    · rw [List.takeWhile_cons, if_neg (by simp [hp])] at h
      exact absurd rfl h

theorem dropWhile_ne_nl_shape (X : Str) :
    X.dropWhile (· ≠ '\n') = [] ∨ ∃ r, X.dropWhile (· ≠ '\n') = '\n' :: r := by
  cases h : X.dropWhile (· ≠ '\n') with
  | nil => exact Or.inl rfl
  | cons c r =>
    right
    have h3 := List.head?_dropWhile_not (fun x => decide (x ≠ '\n')) X
    rw [h] at h3
    simp only [List.head?_cons] at h3
    have hcn : c = '\n' := by simpa using h3
    exact ⟨r, by rw [hcn]⟩

theorem labelAt_of_prefix {a s : Str} (hpre : a <+: s) (h : labelAt a = true) :
    labelAt s = true := by
  rcases hpre with ⟨u, rfl⟩
  rw [labelAt] at h ⊢
  simp only [Bool.or_eq_true, decide_eq_true_eq] at h ⊢
  rcases h with h | h
  · left
    have hlen : 6 ≤ a.length := by
      have h6 : ((a.take 6).map Char.toLower).length = 6 := by rw [h]; decide
      simp only [List.length_map, List.length_take] at h6
      omega
    rw [List.take_append_of_le_length hlen]
    exact h
  · right
    have hlen : 8 ≤ a.length := by
      have h8 : ((a.take 8).map Char.toLower).length = 8 := by rw [h]; decide
      simp only [List.length_map, List.length_take] at h8
      omega
    rw [List.take_append_of_le_length hlen]
    exact h

theorem matchLabelAt_rest_shape {s rest : Str} (h : matchLabelAt s = some rest) :
    rest = [] ∨ ∃ r, rest = '\n' :: r := by
  rw [matchLabelAt] at h
  split_ifs at h with h1 h2 h3 <;> cases h <;> exact dropWhile_ne_nl_shape _

theorem labelAt_ne_nil {s : Str} (h : labelAt s = true) : s ≠ [] := by
  intro hnil
  subst hnil
  exact absurd h (by decide)

theorem labelAt_head_ne_nl {s : Str} (h : labelAt s = true) :
    ∃ c t, s = c :: t ∧ c ≠ '\n' := by
  rcases s with _ | ⟨c, t⟩
  · exact absurd h (by decide)
  · refine ⟨c, t, rfl, ?_⟩
    rw [labelAt] at h
    simp only [Bool.or_eq_true, decide_eq_true_eq] at h
    intro hc
    subst hc
    rcases h with h | h <;>
    · have hh := congrArg List.head? h
      simp only [List.head?_map, List.head?_take, List.head?_cons] at hh
      revert hh
      decide

theorem matchLabelAt_length {s rest : Str} (h : matchLabelAt s = some rest) :
    rest.length < s.length := by
  rw [matchLabelAt] at h
  split_ifs at h with h1 h2 h3 <;> cases h <;>
    first
    | (rcases labelAt_head_ne_nl h1 with ⟨c, t, rfl, hc⟩
       rw [List.dropWhile_cons, if_pos (by simpa using hc)]
       calc (t.dropWhile (· ≠ '\n')).length ≤ t.length := dropWhile_length_le _ t
         _ < (c :: t).length := by simp)
    | (rcases takeWhile_ne_nil_head h2 with ⟨c, t, rfl, hc⟩
       rw [List.dropWhile_cons, if_pos hc]
       calc ((((t.dropWhile (· = '#')).dropWhile isWs).dropWhile (· ≠ '\n'))).length
           ≤ ((t.dropWhile (· = '#')).dropWhile isWs).length := dropWhile_length_le _ _
         _ ≤ (t.dropWhile (· = '#')).length := dropWhile_length_le _ _
         _ ≤ t.length := dropWhile_length_le _ t
         _ < (c :: t).length := by simp)

theorem matchLabelAt_none_line {s : Str} (h : matchLabelAt s = none) :
    lineIsLabel (s.takeWhile (· ≠ '\n')) = false := by
  by_contra hcon
  rw [Bool.not_eq_false] at hcon
  rw [lineIsLabel] at hcon
  rcases Bool.or_eq_true_iff.mp hcon with h1 | h1
  · have hs : labelAt s = true := labelAt_of_prefix (List.takeWhile_prefix _) h1
    rw [matchLabelAt, if_pos hs] at h
    cases h
  · rcases Bool.and_eq_true_iff.mp h1 with ⟨h2, h3⟩
    set ln := s.takeWhile (· ≠ '\n') with hln
    have h2' : ln.takeWhile (· = '#') ≠ [] := by simpa using h2
    set d := ln.dropWhile (· = '#') with hd
    set tln := d.dropWhile isWs with htln
    have htln_ne : tln ≠ [] := labelAt_ne_nil h3
    have hd_ne : d ≠ [] := by
      intro hnil
      rw [htln, hnil] at htln_ne
      exact htln_ne rfl
    rcases List.takeWhile_prefix (l := s) (· ≠ '\n') with ⟨u, hu⟩
    rw [← hln] at hu
    have hsplit1 : s.dropWhile (· = '#') = d ++ u := by
      rw [← hu, List.dropWhile_append]
      rw [if_neg (by simp only [List.isEmpty_iff]; exact hd_ne)]
    have hsplit2 : (s.dropWhile (· = '#')).dropWhile isWs = tln ++ u := by
      rw [hsplit1, List.dropWhile_append]
      rw [if_neg (by simp only [List.isEmpty_iff]; exact htln_ne)]
    have hlab : labelAt ((s.dropWhile (· = '#')).dropWhile isWs) = true := by
      rw [hsplit2]
      exact labelAt_of_prefix (List.prefix_append tln u) h3
    have hhash : s.takeWhile (· = '#') ≠ [] := by
      rcases takeWhile_ne_nil_head h2' with ⟨c, t, hct, hc⟩
      have hs_head : ∃ t2, s = c :: t2 := by
        rcases s with _ | ⟨c2, t2⟩
        · rw [hln] at hct
          cases hct
        · refine ⟨t2, ?_⟩
          have : ln = c2 :: t2.takeWhile (· ≠ '\n') ∨ ln = [] := by
            rw [hln]
            rw [List.takeWhile_cons]
            split_ifs with hcc
            · exact Or.inl rfl
            · exact Or.inr rfl
          rcases this with h5 | h5
          · rw [h5] at hct
            rw [List.cons.injEq] at hct
            rw [hct.1]
          · rw [h5] at hct
            cases hct
      rcases hs_head with ⟨t2, rfl⟩
      rw [List.takeWhile_cons, if_pos hc]
      simp
    by_cases hsl : labelAt s = true
    · rw [matchLabelAt, if_pos hsl] at h
      cases h
    · rw [matchLabelAt, if_neg hsl, if_neg (by simpa using hhash), if_pos hlab] at h
      cases h

theorem splitNl_no_nl {s : Str} (h : '\n' ∉ s) : splitNl s = [s] := by
  induction s with
  | nil => rfl
  | cons c t ih =>
    have hc : c ≠ '\n' := fun hx => h (by rw [← hx]; exact List.mem_cons_self c t)
    rw [splitNl_cons_ne hc, ih (fun hx => h (List.mem_cons_of_mem c hx))]

theorem takeWhile_nl_free (s : Str) : '\n' ∉ s.takeWhile (· ≠ '\n') := by
  intro h
  have := List.mem_takeWhile_imp h
  simp at this

theorem removeLabelsGo_no_labels :
    ∀ (fuel : Nat) (s : Str), s.length ≤ fuel →
      ∀ l ∈ splitNl (removeLabelsGo fuel s), lineIsLabel l = false := by
  intro fuel
  induction fuel with
  | zero =>
    intro s hs l hl
    have : s = [] := List.length_eq_zero.mp (Nat.le_zero.mp hs)
    subst this
    rcases List.mem_singleton.mp hl with rfl
    decide
  | succ n ih =>
    intro s hs l hl
    rw [removeLabelsGo] at hl
    cases hm : matchLabelAt s with
    | some rest =>
      rw [hm] at hl
      have hlen := matchLabelAt_length hm
      rcases matchLabelAt_rest_shape hm with rfl | ⟨r, rfl⟩
      · rcases List.mem_singleton.mp hl with rfl
        decide
      · rw [show splitNl ('\n' :: removeLabelsGo n r) = [] :: splitNl (removeLabelsGo n r)
            from rfl] at hl
        rcases List.mem_cons.mp hl with rfl | hl2
        · decide
        · exact ih r (by simp at hlen; omega) l hl2
    | none =>
      rw [hm] at hl
      cases hdrop : s.dropWhile (· ≠ '\n') with
      | nil =>
        rw [hdrop] at hl
        have hnl : '\n' ∉ s := by
          intro hmem
          have hall := List.dropWhile_eq_nil_iff.mp hdrop
          have := hall '\n' hmem
          simp at this
        have hself : s.takeWhile (· ≠ '\n') = s := by
          rw [List.takeWhile_eq_self_iff]
          intro x hx
          simp only [decide_eq_true_eq]
          intro hxx
          exact hnl (hxx ▸ hx)
        rw [splitNl_no_nl hnl] at hl
        rcases List.mem_singleton.mp hl with rfl
        rw [← hself]
        exact matchLabelAt_none_line hm
      | cons x r =>
        rw [hdrop] at hl
        rw [splitNl_append_cons _ _ (takeWhile_nl_free s)] at hl
        rcases List.mem_cons.mp hl with rfl | hl2
        · exact matchLabelAt_none_line hm
        · have hle : (x :: r).length ≤ s.length := by
            rw [← hdrop]
            exact dropWhile_length_le _ s
          exact ih r (by simp at hle; omega) l hl2

/-- C7: the sanitizer pass removes every occurrence of the redundant-label
pattern: no line of its output matches an optional heading-marker prefix
followed by `Title:` or `Summary:` (case-insensitive); in particular an
input with three `Title:` lines yields an output with zero such lines. -/
theorem C7_sanitizer_removes_all_labels :
    (∀ (s l : Str), l ∈ splitNl (removeLabels s) → lineIsLabel l = false) ∧
    ((splitNl (str "Title: a\nkeep\nTitle: b\nTitle: c")).filter lineIsLabel).length = 3 ∧
    ((splitNl (removeLabels (str "Title: a\nkeep\nTitle: b\nTitle: c"))).filter
      lineIsLabel).length = 0 := by
  refine ⟨?_, by decide, by decide⟩
  intro s l hl
  exact removeLabelsGo_no_labels s.length s le_rfl l hl

/-- Witness for C7: a surviving line of a sanitized text is not a label
line. -/
theorem C7_sanitizer_removes_all_labels_witness :
    str "keep" ∈ splitNl (removeLabels (str "Title: a\nkeep")) ∧
      lineIsLabel (str "keep") = false :=
  ⟨by decide,
    C7_sanitizer_removes_all_labels.1 (str "Title: a\nkeep") (str "keep") (by decide)⟩

/-- C9 (implicit): header value extraction truncates at the first quote
character inside the value.  For every line of the shape
`title: "<pre><quote><post>"` where `pre` is nonempty and free of quotes and
newlines, `extractTitleFromLine` returns only (the trim of) `pre`, the
prefix of the value before that quote character; `extractValueFromLine`
behaves the same on `description:` lines; and a line with an empty quoted
value yields the empty (unset) result. -/
theorem C9_truncation_at_quote (pre post : Str) (q : Char)
    (hq : isQuoteChar q = true) (hpre : pre ≠ [])
    (hchars : ∀ c ∈ pre, isValChar c = true) :
    extractTitleFromLine (str "title: \"" ++ pre ++ q :: post) = trim pre ∧
    extractValueFromLine (str "description: \"" ++ pre ++ q :: post) = trim pre ∧
    extractTitleFromLine (str "title: \"\"") = [] ∧
    extractValueFromLine (str "cover: \"\"") = [] := by
  refine ⟨?_, ?_, by decide, by decide⟩
  · have hline : str "title: \"" ++ pre ++ q :: post =
        str "title:" ++ (' ' :: '"' :: (pre ++ q :: post)) := by
      rw [show (str "title: \"" : Str) = str "title:" ++ [' ', '"'] from by decide]
      simp [List.append_assoc]
    rw [hline]
    have hlen : (str "title:" ++ (' ' :: '"' :: (pre ++ q :: post))).length =
        (str "title:" ++ (' ' :: '"' :: (pre ++ q :: post))).length - 1 + 1 := by
      simp only [List.length_append, List.length_cons]
      omega
    have htake : ((str "title:" ++ (' ' :: '"' :: (pre ++ q :: post))).take 6).map
        Char.toLower = str "title:" := by
      rw [List.take_append_of_le_length (by decide)]
      decide
    have hdrop : (str "title:" ++ (' ' :: '"' :: (pre ++ q :: post))).drop 6 =
        ' ' :: '"' :: (pre ++ q :: post) := by
      rw [List.drop_left' (by decide)]
    rw [extractTitleFromLine, hlen,
      findKeyMatch_here _ htake (by rw [hdrop]; exact matchValue_after_quote hq hpre hchars)]
  · have hline : str "description: \"" ++ pre ++ q :: post =
        str "description" ++ (':' :: (' ' :: '"' :: (pre ++ q :: post))) := by
      rw [show (str "description: \"" : Str) = str "description" ++ [':', ' ', '"'] from by
        decide]
      simp [List.append_assoc]
    rw [hline]
    rw [extractValueFromLine,
      findColonMatch_skip (by decide) (':' :: (' ' :: '"' :: (pre ++ q :: post)))]
    show (match findColonMatch ((' ' :: '"' :: (pre ++ q :: post)).length + 1)
        (':' :: (' ' :: '"' :: (pre ++ q :: post))) with
      | some cap => trim cap
      | none => []) = trim pre
    rw [findColonMatch_here (matchValue_after_quote hq hpre hchars)]

/-- Witness for C9 on the line `title: "Don't Panic"` (single quote inside a
double-quoted value): only `Don`, the prefix before the apostrophe, is
extracted. -/
theorem C9_truncation_at_quote_witness :
    extractTitleFromLine (str "title: \"" ++ str "Don" ++ apos :: str "t Panic\"") =
      trim (str "Don") ∧
    extractValueFromLine (str "description: \"" ++ str "Don" ++ apos :: str "t Panic\"") =
      trim (str "Don") ∧
    extractTitleFromLine (str "title: \"\"") = [] ∧
    extractValueFromLine (str "cover: \"\"") = [] :=
  C9_truncation_at_quote (str "Don") (str "t Panic\"") apos (by decide) (by decide) (by decide)

/-- Witness for the amended C10 at a text with no `cover:` occurrence. -/
theorem C10_cover_rewrite_amended_witness :
    updateArticleFrontmatter (str "# T\nplain body\n") (str "x.png") =
        str "# T\nplain body\n" ∧
    updateArticleFrontmatter (str "# I\ndiscover: treasures\ncover: old.png\n")
        (str "new.png") =
      str "# I\ndiscover: \"/covers/new.png\"\ncover: \"/covers/new.png\"\n" :=
  C10_cover_rewrite_amended (str "# T\nplain body\n") (str "x.png") (by decide)

end Blog
